import Mathlib

/-!
Verification of the `cleanup-ece-users` administrative toolchain.

The development shallowly embeds the two Python scripts:

* `list_readonly_created_users.py` — discovery pipeline: build a
  creator → created-users index from a flat user listing and compute the
  breadth-first closure of "created by X, recursively", unioned with the
  service-account set.
* `delete_users.py` — deletion pipeline: a confirmation gate and a batch
  deleter that issues one delete per target and classifies each outcome.

Network calls are modelled by passing the behaviour of the remote service
as an explicit function; each embedded operation additionally returns the list of
identifiers for which a remote delete call was actually issued, so that
"never invokes the remote delete operation" is a provable statement.
-/

namespace CleanupEceUsers

/-- A user record as consumed by the discovery script: the `user_name` field
and the `created_by` field of the `metadata` object.  `none` models an absent
field; the empty string models a present-but-falsy value (Python truthiness
treats both as false in `if created_by and username`). -/
structure UserRec where
  user_name : Option String
  created_by : Option String
deriving DecidableEq, Repr

/-- Python truthiness of an optional string: `None` and `""` are falsy. -/
def strTruthy : Option String → Bool
  | none => false
  | some s => !(s == "")

/-- Model of `ElasticUserManager.build_creator_map(users).get(c, [])`: the ordered list
of usernames of users whose `metadata.created_by` equals `c`, keeping only
records where both `created_by` and `user_name` are truthy, in input order
(dict insertion order preserves the scan order of appends). -/
def build_creator_map_get (users : List UserRec) (c : String) : List String :=
  users.filterMap (fun u =>
    match u.user_name, u.created_by with
    | some name, some cb =>
        if strTruthy (some name) ∧ strTruthy (some cb) ∧ cb = c then some name else none
    | _, _ => none)

/-- All usernames that appear as a value anywhere in the creator map: the
usernames of records with truthy `user_name` and `created_by`. -/
def allCreated (users : List UserRec) : List String :=
  users.filterMap (fun u =>
    match u.user_name, u.created_by with
    | some name, some cb =>
        if strTruthy (some name) ∧ strTruthy (some cb) then some name else none
    | _, _ => none)

/-- The inner `for user in created_users` loop of `find_users_created_by`:
given the current visited list `found` and the children `cs` of the popped
creator, it returns the updated visited list together with the sub-list of
newly discovered users (the ones appended to `to_process`), in order. -/
def addChildren (found : List String) : List String → List String × List String
  | [] => (found, [])
  | u :: rest =>
    if u ∈ found then addChildren found rest
    else
      let fq := addChildren (found ++ [u]) rest
      (fq.1, u :: fq.2)

/-- The `while to_process:` loop of `find_users_created_by`, with explicit
fuel (the Python loop has no fuel; sufficiency of the fuel supplied by
`find_users_created_by` is proved below, which is the termination claim).
Returns the visited list together with the remaining work-queue — the queue
component is `[]` exactly when the loop ran to completion. -/
def bfsRun (cmap : String → List String) : Nat → List String → List String → List String × List String
  | 0, found, queue => (found, queue)
  | Nat.succ fuel, found, queue =>
    match queue with
    | [] => (found, [])
    | c :: rest =>
      let fq := addChildren found (cmap c)
      bfsRun cmap fuel fq.1 (rest ++ fq.2)

/-- Fuel supplied to the loop: one unit per possible pop.  The queue receives
the seed once plus each username at most once, so `users.length + 2` pops
always suffice; we keep a generous `2 * users.length + 2`. -/
def bfsFuel (users : List UserRec) : Nat := 2 * users.length + 2

/-- Model of `ElasticUserManager.find_users_created_by(initial_creator, users)`:
breadth-first closure of the creator relation from the seed.  The Python
`found_users` set is represented as a duplicate-free list (membership is all
that the algorithm and its callers consume). -/
def find_users_created_by (initial_creator : String) (users : List UserRec) : List String :=
  (bfsRun (build_creator_map_get users) (bfsFuel users) [] [initial_creator]).1

/-- One creator-of edge: `b` was created by `a` (i.e. `b` is listed among the
children of `a` in the creator map). -/
def createdEdge (users : List UserRec) (a b : String) : Prop :=
  b ∈ build_creator_map_get users a

/-- Holds when `b` is reachable from `a` by one or more creator-of edges. -/
def ReachesFrom (users : List UserRec) (a b : String) : Prop :=
  Relation.TransGen (createdEdge users) a b

/-- Union performed by `main` in `created_users.update(service_account_users)`:
the discovery result is the set-union of the closure with the service-account
set. -/
def discoveryResult (initial_creator : String) (users : List UserRec)
    (service_account_users : Finset String) : Finset String :=
  (find_users_created_by initial_creator users).toFinset ∪ service_account_users

/-! Lemmas about the inner child-scanning loop. -/

theorem addChildren_fst (found cs : List String) :
    (addChildren found cs).1 = found ++ (addChildren found cs).2 := by
  induction cs generalizing found with
  | nil => simp [addChildren]
  | cons u rest ih =>
    by_cases hu : u ∈ found
    · simpa [addChildren, hu] using ih found
    · simp only [addChildren, hu, if_neg, ite_false]
      rw [ih (found ++ [u])]
      simp

theorem mem_addChildren_snd {found cs : List String} {v : String}
    (h : v ∈ (addChildren found cs).2) : v ∈ cs ∧ v ∉ found := by
  induction cs generalizing found with
  | nil => simp [addChildren] at h
  | cons u rest ih =>
    by_cases hu : u ∈ found
    · simp only [addChildren, hu, ite_true] at h
      rcases ih h with ⟨h1, h2⟩
      exact ⟨List.mem_cons_of_mem _ h1, h2⟩
    · simp only [addChildren, hu, ite_false, List.mem_cons] at h
      rcases h with rfl | h
      · exact ⟨List.mem_cons_self _ _, hu⟩
      · rcases ih h with ⟨h1, h2⟩
        refine ⟨List.mem_cons_of_mem _ h1, fun hv => h2 ?_⟩
        exact List.mem_append_left _ hv

theorem addChildren_snd_nodup (found cs : List String) :
    (addChildren found cs).2.Nodup := by
  induction cs generalizing found with
  | nil => simp [addChildren]
  | cons u rest ih =>
    by_cases hu : u ∈ found
    · simpa [addChildren, hu] using ih found
    · simp only [addChildren, hu, ite_false, List.nodup_cons]
      refine ⟨fun hmem => ?_, ih (found ++ [u])⟩
      have := (mem_addChildren_snd hmem).2
      simp at this

theorem addChildren_complete {found cs : List String} {v : String} (h : v ∈ cs) :
    v ∈ (addChildren found cs).1 := by
  induction cs generalizing found with
  | nil => simp at h
  | cons u rest ih =>
    by_cases hu : u ∈ found
    · rcases List.mem_cons.mp h with rfl | h'
      · rw [addChildren_fst]
        exact List.mem_append_left _ hu
      · simpa [addChildren, hu] using ih h'
    · simp only [addChildren, hu, ite_false]
      rcases List.mem_cons.mp h with rfl | h'
      · rw [addChildren_fst]
        simp
      · exact ih h'

/-! The breadth-first-search invariant. -/

/-- One step of the creator relation, for an abstract child map. -/
def stepRel (cmap : String → List String) (a b : String) : Prop := b ∈ cmap a

/-- Loop invariant of `bfsRun`: the visited list is duplicate-free, drawn
from the universe `univ`, sound for reachability from the seed; every queued
identifier is the seed or already reachable; and every visited identifier
(and the seed) is either still queued or has all of its children visited. -/
structure BfsInv (cmap : String → List String) (seed : String) (univ : List String)
    (found queue : List String) : Prop where
  nodup : found.Nodup
  inUniv : ∀ v ∈ found, v ∈ univ
  sound : ∀ v ∈ found, Relation.TransGen (stepRel cmap) seed v
  qsound : ∀ c ∈ queue, c = seed ∨ Relation.TransGen (stepRel cmap) seed c
  expanded : ∀ c, c = seed ∨ c ∈ found → c ∈ queue ∨ ∀ v ∈ cmap c, v ∈ found

theorem bfsInv_step {cmap : String → List String} {seed : String} {univ : List String}
    {found rest : List String} {c : String}
    (hU : ∀ x, ∀ v ∈ cmap x, v ∈ univ)
    (h : BfsInv cmap seed univ found (c :: rest)) :
    BfsInv cmap seed univ (addChildren found (cmap c)).1
      (rest ++ (addChildren found (cmap c)).2) := by
  have hreach_c : c = seed ∨ Relation.TransGen (stepRel cmap) seed c :=
    h.qsound c (List.mem_cons_self _ _)
  have hsnd : ∀ v ∈ (addChildren found (cmap c)).2,
      Relation.TransGen (stepRel cmap) seed v := by
    intro v hv
    have hvc : v ∈ cmap c := (mem_addChildren_snd hv).1
    rcases hreach_c with rfl | hr
    · exact Relation.TransGen.single hvc
    · exact hr.tail hvc
  have hfst : ∀ v ∈ (addChildren found (cmap c)).1,
      Relation.TransGen (stepRel cmap) seed v := by
    rw [addChildren_fst]
    intro v hv
    rcases List.mem_append.mp hv with hv | hv
    · exact h.sound v hv
    · exact hsnd v hv
  refine ⟨?_, ?_, hfst, ?_, ?_⟩
  · rw [addChildren_fst]
    rw [List.nodup_append]
    refine ⟨h.nodup, addChildren_snd_nodup _ _, ?_⟩
    intro a ha hb
    exact (mem_addChildren_snd hb).2 ha
  · rw [addChildren_fst]
    intro v hv
    rcases List.mem_append.mp hv with hv | hv
    · exact h.inUniv v hv
    · exact hU c v (mem_addChildren_snd hv).1
  · intro d hd
    rcases List.mem_append.mp hd with hd | hd
    · exact h.qsound d (List.mem_cons_of_mem _ hd)
    · exact Or.inr (hsnd d hd)
  · intro d hd
    by_cases hdq : d ∈ (addChildren found (cmap c)).2
    · exact Or.inl (List.mem_append_right _ hdq)
    · have hd' : d = seed ∨ d ∈ found := by
        rcases hd with rfl | hd
        · exact Or.inl rfl
        · rw [addChildren_fst] at hd
          rcases List.mem_append.mp hd with hd | hd
          · exact Or.inr hd
          · exact absurd hd hdq
      rcases h.expanded d hd' with hq | hexp
      · rcases List.mem_cons.mp hq with rfl | hq
        · refine Or.inr (fun v hv => addChildren_complete hv)
        · exact Or.inl (List.mem_append_left _ hq)
      · refine Or.inr (fun v hv => ?_)
        rw [addChildren_fst]
        exact List.mem_append_left _ (hexp v hv)

theorem bfsRun_inv {cmap : String → List String} {seed : String} {univ : List String}
    (hU : ∀ x, ∀ v ∈ cmap x, v ∈ univ) :
    ∀ (fuel : Nat) (found queue : List String), BfsInv cmap seed univ found queue →
      BfsInv cmap seed univ (bfsRun cmap fuel found queue).1 (bfsRun cmap fuel found queue).2 := by
  intro fuel
  induction fuel with
  | zero => intro found queue h; exact h
  | succ fuel ih =>
    intro found queue h
    match queue with
    | [] =>
      simpa [bfsRun] using ⟨h.nodup, h.inUniv, h.sound, by simp, by
        intro c hc
        rcases h.expanded c hc with hq | he
        · simp at hq
        · exact Or.inr he⟩
    | c :: rest =>
      simp only [bfsRun]
      exact ih _ _ (bfsInv_step hU h)

/-- With enough fuel the loop always drains its queue: each pop consumes one
unit of fuel and enqueues only identifiers that are new to the duplicate-free
visited list, which is bounded by the universe. -/
theorem bfsRun_completes {cmap : String → List String} {univ : List String}
    (hU : ∀ x, ∀ v ∈ cmap x, v ∈ univ) :
    ∀ (fuel : Nat) (found queue : List String), found.Nodup → (∀ v ∈ found, v ∈ univ) →
      queue.length + 2 * (univ.dedup.length - found.length) < fuel →
      (bfsRun cmap fuel found queue).2 = [] := by
  intro fuel
  induction fuel with
  | zero => intro found queue _ _ hlt; omega
  | succ fuel ih =>
    intro found queue hnd hin hlt
    match queue with
    | [] => simp [bfsRun]
    | c :: rest =>
      simp only [bfsRun]
      have hfst := addChildren_fst found (cmap c)
      have hnd' : (addChildren found (cmap c)).1.Nodup := by
        rw [hfst, List.nodup_append]
        exact ⟨hnd, addChildren_snd_nodup _ _, fun a ha hb => (mem_addChildren_snd hb).2 ha⟩
      have hin' : ∀ v ∈ (addChildren found (cmap c)).1, v ∈ univ := by
        rw [hfst]
        intro v hv
        rcases List.mem_append.mp hv with hv | hv
        · exact hin v hv
        · exact hU c v (mem_addChildren_snd hv).1
      have hcard : (addChildren found (cmap c)).1.length ≤ univ.dedup.length := by
        have hsub : (addChildren found (cmap c)).1 ⊆ univ.dedup := fun v hv =>
          List.mem_dedup.mpr (hin' v hv)
        exact (List.subperm_of_subset hnd' hsub).length_le
      apply ih _ _ hnd' hin'
      have hlen1 : (addChildren found (cmap c)).1.length =
          found.length + (addChildren found (cmap c)).2.length := by
        rw [hfst, List.length_append]
      simp only [List.length_cons] at hlt
      simp only [List.length_append]
      omega

/-- At a drained queue, the invariant makes the visited list closed under the
child relation, hence it contains everything reachable from the seed. -/
theorem bfsInv_closed {cmap : String → List String} {seed : String} {univ : List String}
    {found : List String} (h : BfsInv cmap seed univ found ([] : List String)) :
    ∀ v, Relation.TransGen (stepRel cmap) seed v → v ∈ found := by
  intro v hv
  induction hv with
  | single hstep =>
    rcases h.expanded seed (Or.inl rfl) with hq | he
    · simp at hq
    · exact he _ hstep
  | tail _ hbc ih =>
    rcases h.expanded _ (Or.inr ih) with hq | he
    · simp at hq
    · exact he _ hbc

theorem build_creator_map_get_subset_allCreated {users : List UserRec} (c : String) :
    ∀ v ∈ build_creator_map_get users c, v ∈ allCreated users := by
  intro v hv
  simp only [build_creator_map_get, List.mem_filterMap] at hv
  obtain ⟨u, hu, hf⟩ := hv
  refine List.mem_filterMap.mpr ⟨u, hu, ?_⟩
  rcases hun : u.user_name with _ | name <;> rcases hcb : u.created_by with _ | cb <;>
      simp only [hun, hcb] at hf ⊢ <;> try exact hf
  split_ifs at hf with hcond
  · split_ifs with hcond2
    · exact hf
    · exact absurd ⟨hcond.1, hcond.2.1⟩ hcond2

theorem allCreated_length_le (users : List UserRec) :
    (allCreated users).length ≤ users.length :=
  List.length_filterMap_le _ _

/-- The invariant holds at the initial state of `find_users_created_by`. -/
theorem bfsInv_init (cmap : String → List String) (seed : String) (univ : List String) :
    BfsInv cmap seed univ [] [seed] := by
  refine ⟨List.nodup_nil, by simp, by simp, ?_, ?_⟩
  · intro c hc
    simp only [List.mem_singleton] at hc
    exact Or.inl hc
  · intro c hc
    rcases hc with rfl | hc
    · exact Or.inl (List.mem_singleton_self _)
    · simp at hc

/-- The characterization of the breadth-first closure: an identifier is
returned exactly when it is reachable from the seed by one or more
creator-of edges; moreover the visited queue is fully drained and the
result is duplicate-free. -/
theorem find_users_created_by_spec (initial_creator : String) (users : List UserRec) :
    (bfsRun (build_creator_map_get users) (bfsFuel users) [] [initial_creator]).2 = [] ∧
    (find_users_created_by initial_creator users).Nodup ∧
    ∀ v, v ∈ find_users_created_by initial_creator users ↔
      ReachesFrom users initial_creator v := by
  have hU : ∀ x, ∀ v ∈ build_creator_map_get users x, v ∈ allCreated users :=
    fun x => build_creator_map_get_subset_allCreated x
  have hfuel : ([initial_creator] : List String).length +
      2 * ((allCreated users).dedup.length - ([] : List String).length) < bfsFuel users := by
    have h1 : (allCreated users).dedup.length ≤ (allCreated users).length :=
      (List.dedup_sublist _).length_le
    have h2 := allCreated_length_le users
    simp only [List.length_singleton, List.length_nil, Nat.sub_zero, bfsFuel]
    omega
  have hdrained := bfsRun_completes hU (bfsFuel users) [] [initial_creator]
    List.nodup_nil (by simp) hfuel
  have hinv := bfsRun_inv hU (bfsFuel users) [] [initial_creator]
    (bfsInv_init (build_creator_map_get users) initial_creator (allCreated users))
  rw [hdrained] at hinv
  refine ⟨hdrained, hinv.nodup, fun v => ⟨fun hv => hinv.sound v hv, fun hv => ?_⟩⟩
  exact bfsInv_closed hinv v hv

/-! Deletion pipeline, embedding `delete_users.py`. -/

/-- One element of the `errors` array of a 400-response payload, carrying an
optional `code` field that the script reads with a generic fallback. -/
structure ApiErrorObj where
  code : Option String
deriving DecidableEq, Repr

/-- The parsed JSON body of an error response, carrying an optional `errors`
array. -/
structure ApiErrorBody where
  errors : Option (List ApiErrorObj)
deriving DecidableEq, Repr

/-- The raw result of `requests.delete`: either a response with a status code
and a body (`none` models a body on which `response.json()` raises), or a
raised `requests.exceptions.RequestException` carrying its description. -/
inductive HttpResult where
  | response (status : Nat) (body : Option ApiErrorBody)
  | requestException (description : String)
deriving DecidableEq, Repr

/-- The deletion client; transport configuration (hostname, auth, base URL)
belongs to the external collaborator boundary and plays no role in the
claims, so only the `dry_run` flag is carried. -/
structure ElasticUserDeleter where
  dry_run : Bool
deriving DecidableEq, Repr

/-- Model of `ElasticUserDeleter.delete_user(user_name)`.  The remote service is the
explicit function `remote`; the second component of the result lists the
identifiers for which a remote delete call was issued (empty in dry-run,
`[user_name]` otherwise).  The first component is the `(success, message)`
pair returned by the Python method, with every branch translated:
200 → success, 400 → error-code extraction with silent fallback on any
parsing failure (`except:`), 404 → not found, other statuses → raw HTTP
status, raised request exception → error description. -/
def delete_user (d : ElasticUserDeleter) (remote : String → HttpResult)
    (user_name : String) : (Bool × String) × List String :=
  if d.dry_run then
    ((true, "DRY RUN: Would delete user \x27" ++ user_name ++ "\x27"), [])
  else
    match remote user_name with
    | HttpResult.requestException e =>
        ((false, "Error deleting \x27" ++ user_name ++ "\x27: " ++ e), [user_name])
    | HttpResult.response status body =>
        if status == 200 then
          ((true, "Successfully deleted user \x27" ++ user_name ++ "\x27"), [user_name])
        else if status == 400 then
          (match body with
          | none =>
              ((false, "Cannot delete \x27" ++ user_name ++ "\x27: Bad request (400)"),
                [user_name])
          | some errorData =>
              (match errorData.errors with
              | none =>
                  ((false, "Cannot delete \x27" ++ user_name ++ "\x27: Unknown error"),
                    [user_name])
              | some [] =>
                  ((false, "Cannot delete \x27" ++ user_name ++ "\x27: Bad request (400)"),
                    [user_name])
              | some (e0 :: _) =>
                  ((false, "Cannot delete \x27" ++ user_name ++ "\x27: " ++
                      e0.code.getD "Unknown error"), [user_name])))
        else if status == 404 then
          ((false, "User \x27" ++ user_name ++ "\x27 not found"), [user_name])
        else
          ((false, "Failed to delete \x27" ++ user_name ++ "\x27: HTTP " ++ toString status),
            [user_name])

/-- The aggregate report built by `delete_users_batch`: the `results` dict
with its `successful` list, `failed` list of `(username, error)` entries and
`total` count. -/
structure BatchResults where
  successful : List String
  failed : List (String × String)
  total : Nat
deriving DecidableEq, Repr

/-- The `for username in usernames` loop of `delete_users_batch`: processes
the remaining identifiers in input order, appending each to exactly one of
`successful` or `failed`, and accumulates the remote calls issued. -/
def batchLoop (d : ElasticUserDeleter) (remote : String → HttpResult) :
    List String → BatchResults → BatchResults × List String
  | [], acc => (acc, [])
  | u :: rest, acc =>
      let r := delete_user d remote u
      let acc2 :=
        if r.1.1 then { acc with successful := acc.successful ++ [u] }
        else { acc with failed := acc.failed ++ [(u, r.1.2)] }
      let rem := batchLoop d remote rest acc2
      (rem.1, r.2 ++ rem.2)

/-- Model of `ElasticUserDeleter.delete_users_batch(usernames)`: the report, together
with the list of identifiers for which a remote delete call was issued.
`total` is fixed to `len(usernames)` up front, as in the source. -/
def delete_users_batch (d : ElasticUserDeleter) (remote : String → HttpResult)
    (usernames : List String) : BatchResults × List String :=
  batchLoop d remote usernames { successful := [], failed := [], total := usernames.length }

/-- The console environment seen by `confirm_deletion`: whether standard
input is a terminal, the line `input()` would deliver, and the line read
from the controlling terminal `/dev/tty` — `none` when opening or reading
the terminal raises `OSError`/`IOError` (no controlling terminal). -/
structure ConsoleEnv where
  stdin_isatty : Bool
  stdin_line : String
  tty_line : Option String
deriving DecidableEq, Repr

/-- Model of `confirm_deletion(usernames, dry_run)`: in dry-run mode it proceeds
unconditionally without prompting; otherwise it reads the confirmation token
— from `/dev/tty` (stripped) when standard input is not a terminal, failing
closed (`False`) when no terminal can be opened, and from standard input
otherwise — and proceeds exactly when the token equals `"DELETE"`.  The
`usernames` argument is only printed and does not influence the decision. -/
def confirm_deletion (usernames : List String) (dry_run : Bool) (env : ConsoleEnv) : Bool :=
  if dry_run then true
  else
    if !env.stdin_isatty then
      match env.tty_line with
      | none => false
      | some line => line.trim == "DELETE"
    else env.stdin_line == "DELETE"

/-- Full characterization of the batch loop: it never aborts, each remaining
identifier is appended (in input order) to `successful` exactly when its own
delete call reports success and to `failed` with its message otherwise,
`total` is left untouched, and the issued remote calls are the concatenation
of the per-item calls. -/
theorem batchLoop_spec (d : ElasticUserDeleter) (remote : String → HttpResult) :
    ∀ (us : List String) (acc : BatchResults),
      batchLoop d remote us acc =
        ({ successful := acc.successful ++ (us.filter fun u => (delete_user d remote u).1.1),
           failed := acc.failed ++
             ((us.filter fun u => !(delete_user d remote u).1.1).map
               fun u => (u, (delete_user d remote u).1.2)),
           total := acc.total },
         us.flatMap fun u => (delete_user d remote u).2) := by
  intro us
  induction us with
  | nil => intro acc; simp [batchLoop]
  | cons u rest ih =>
    intro acc
    by_cases hu : (delete_user d remote u).1.1
    · simp [batchLoop, hu, ih, List.filter_cons]
    · simp [batchLoop, hu, ih, List.filter_cons]

theorem length_filter_add_length_filter_not (p : String → Bool) (us : List String) :
    (us.filter p).length + (us.filter fun u => !p u).length = us.length := by
  induction us with
  | nil => simp
  | cons u rest ih => by_cases hu : p u <;> simp [hu, List.filter_cons] <;> omega

/-! Claim theorems. -/

/-- C1: for every account list (in particular every acyclic one) and every
seed, `find_users_created_by` returns, without duplicates, exactly the
identifiers reachable from the seed by following creator-of edges forward,
and the final discovery result is the set-union of that closure with the
service-account set. -/
theorem c1_resolver_computes_reachable_closure (users : List UserRec) (seed : String)
    (service_account_users : Finset String) :
    ((find_users_created_by seed users).Nodup ∧
      ∀ v, v ∈ find_users_created_by seed users ↔ ReachesFrom users seed v) ∧
    ∀ v, v ∈ discoveryResult seed users service_account_users ↔
      (ReachesFrom users seed v ∨ v ∈ service_account_users) := by
  obtain ⟨-, hnd, hiff⟩ := find_users_created_by_spec seed users
  refine ⟨⟨hnd, hiff⟩, fun v => ?_⟩
  simp [discoveryResult, hiff v]

/-- C5: for every account list, even with cyclic or self-referential creator
data, the closure computation terminates (the work queue is fully drained
within the supplied fuel) and the result is a duplicate-free list. -/
theorem c5_closure_terminates_without_duplicates (users : List UserRec) (seed : String) :
    (bfsRun (build_creator_map_get users) (bfsFuel users) [] [seed]).2 = [] ∧
    (find_users_created_by seed users).Nodup :=
  ⟨(find_users_created_by_spec seed users).1, (find_users_created_by_spec seed users).2.1⟩

/-- C8: the result never contains duplicates, and the seed itself appears in
the closure exactly when it reappears as the created target of some
identifier of the closure. -/
theorem c8_seed_excluded_unless_created_target (users : List UserRec) (seed : String) :
    (find_users_created_by seed users).Nodup ∧
    (seed ∈ find_users_created_by seed users ↔
      ∃ b ∈ find_users_created_by seed users, seed ∈ build_creator_map_get users b) := by
  obtain ⟨-, hnd, hiff⟩ := find_users_created_by_spec seed users
  refine ⟨hnd, ⟨fun hseed => ?_, fun ⟨b, hb, hedge⟩ => ?_⟩⟩
  · have hreach : ReachesFrom users seed seed := (hiff seed).mp hseed
    rcases (Relation.TransGen.tail'_iff).mp hreach with ⟨b, hsb, hedge⟩
    rcases (Relation.reflTransGen_iff_eq_or_transGen).mp hsb with rfl | htrans
    · exact ⟨b, hseed, hedge⟩
    · exact ⟨b, (hiff b).mpr htrans, hedge⟩
  · have hreach : ReachesFrom users seed b := (hiff b).mp hb
    exact (hiff seed).mpr (hreach.tail hedge)

/-- C9: a seed with no creator-map entry (in particular any identifier that
no account names as its creator) yields an empty closure, and with an empty
service-account set an empty discovery result — not an error. -/
theorem c9_childless_seed_yields_empty (users : List UserRec) (seed : String) :
    (build_creator_map_get users seed = [] →
      find_users_created_by seed users = [] ∧ discoveryResult seed users ∅ = ∅) ∧
    ((∀ u ∈ users, u.created_by ≠ some seed) → build_creator_map_get users seed = []) := by
  constructor
  · intro hnil
    obtain ⟨-, -, hiff⟩ := find_users_created_by_spec seed users
    have hempty : find_users_created_by seed users = [] := by
      rw [List.eq_nil_iff_forall_not_mem]
      intro v hv
      have hreach : ReachesFrom users seed v := (hiff v).mp hv
      rcases (Relation.TransGen.head'_iff).mp hreach with ⟨b, hedge, -⟩
      unfold createdEdge at hedge
      rw [hnil] at hedge
      simp at hedge
    refine ⟨hempty, ?_⟩
    simp [discoveryResult, hempty]
  · intro hnone
    rw [build_creator_map_get, List.filterMap_eq_nil_iff]
    intro u hu
    rcases hun : u.user_name with _ | name <;> rcases hcb : u.created_by with _ | cb <;> simp
    intro h1 h2 h3
    exact absurd (hcb.trans (by rw [h3])) (hnone u hu)

/-- C2: in dry-run mode the batch deleter issues no remote delete call for
any target, classifies every target with the dry-run skip message, and the
confirmation gate proceeds without consulting any input source. -/
theorem c2_dry_run_never_calls_remote (d : ElasticUserDeleter)
    (remote : String → HttpResult) (usernames : List String) (env : ConsoleEnv)
    (h : d.dry_run = true) :
    (delete_users_batch d remote usernames).2 = [] ∧
    (∀ u ∈ usernames, delete_user d remote u =
      ((true, "DRY RUN: Would delete user \x27" ++ u ++ "\x27"), [])) ∧
    confirm_deletion usernames true env = true := by
  have hdu : ∀ u, delete_user d remote u =
      ((true, "DRY RUN: Would delete user \x27" ++ u ++ "\x27"), []) := by
    intro u
    simp [delete_user, h]
  refine ⟨?_, fun u _ => hdu u, by simp [confirm_deletion]⟩
  rw [delete_users_batch, batchLoop_spec]
  simp [hdu]

/-- C2 witness: a concrete dry-run batch of two targets issues no remote
call, marks both with the dry-run message, and the gate proceeds. -/
theorem c2_dry_run_never_calls_remote_witness :
    (delete_users_batch ⟨true⟩ (fun _ => HttpResult.response 200 none) ["alice", "bob"]).2 = [] ∧
    (∀ u ∈ (["alice", "bob"] : List String),
      delete_user ⟨true⟩ (fun _ => HttpResult.response 200 none) u =
        ((true, "DRY RUN: Would delete user \x27" ++ u ++ "\x27"), [])) ∧
    confirm_deletion ["alice", "bob"] true ⟨false, "", none⟩ = true :=
  c2_dry_run_never_calls_remote ⟨true⟩ (fun _ => HttpResult.response 200 none)
    ["alice", "bob"] ⟨false, "", none⟩ rfl

/-- C3: with non-interactive standard input the decision of the gate is a function
of the controlling-terminal token only — it refuses when no terminal can be
opened, and otherwise proceeds exactly when the terminal token (stripped)
equals DELETE, ignoring the piped stream. -/
theorem c3_gate_fails_closed_without_terminal (usernames : List String) (env : ConsoleEnv)
    (h : env.stdin_isatty = false) :
    (env.tty_line = none → confirm_deletion usernames false env = false) ∧
    (∀ t, env.tty_line = some t →
      confirm_deletion usernames false env = (t.trim == "DELETE")) := by
  constructor
  · intro ht
    simp [confirm_deletion, h, ht]
  · intro t ht
    simp [confirm_deletion, h, ht]

/-- C3 witness: with input piped in (even a stream that reads DELETE) and no
controlling terminal, the gate refuses to proceed. -/
theorem c3_gate_fails_closed_without_terminal_witness :
    confirm_deletion ["alice"] false ⟨false, "DELETE", none⟩ = false :=
  (c3_gate_fails_closed_without_terminal ["alice"] ⟨false, "DELETE", none⟩ rfl).1 rfl

/-- C4: in interactive non-dry-run mode the gate proceeds exactly when the
token read from standard input is the literal string DELETE. -/
theorem c4_interactive_requires_exact_token (usernames : List String) (env : ConsoleEnv)
    (h : env.stdin_isatty = true) :
    confirm_deletion usernames false env = true ↔ env.stdin_line = "DELETE" := by
  simp [confirm_deletion, h]

/-- C4 witness: the exact token proceeds; the lowercase and empty tokens
abort. -/
theorem c4_interactive_requires_exact_token_witness :
    confirm_deletion ["alice"] false ⟨true, "DELETE", none⟩ = true ∧
    confirm_deletion ["alice"] false ⟨true, "delete", none⟩ = false ∧
    confirm_deletion ["alice"] false ⟨true, "", none⟩ = false := by
  refine ⟨(c4_interactive_requires_exact_token ["alice"] ⟨true, "DELETE", none⟩ rfl).mpr rfl,
    ?_, ?_⟩
  · by_cases hb : confirm_deletion ["alice"] false ⟨true, "delete", none⟩ = true
    · exact absurd ((c4_interactive_requires_exact_token ["alice"]
        ⟨true, "delete", none⟩ rfl).mp hb) (by decide)
    · simpa using hb
  · by_cases hb : confirm_deletion ["alice"] false ⟨true, "", none⟩ = true
    · exact absurd ((c4_interactive_requires_exact_token ["alice"]
        ⟨true, "", none⟩ rfl).mp hb) (by decide)
    · simpa using hb

/-- C6: a batch whose first target deletes cleanly and whose second target is
unknown to the remote reports the first as successful and the second as
failed with the not-found reason, counts both in the total, and still
processes every identifier that follows the failure. -/
theorem c6_batch_continues_past_failure (d : ElasticUserDeleter)
    (remote : String → HttpResult) (rest : List String) (ba bg : Option ApiErrorBody)
    (hdry : d.dry_run = false)
    (h1 : remote "alice" = HttpResult.response 200 ba)
    (h2 : remote "ghost" = HttpResult.response 404 bg) :
    ((delete_users_batch d remote ("alice" :: "ghost" :: rest)).1.successful =
        "alice" :: (rest.filter fun u => (delete_user d remote u).1.1)) ∧
    ((delete_users_batch d remote ("alice" :: "ghost" :: rest)).1.failed =
        ("ghost", "User \x27ghost\x27 not found") ::
          ((rest.filter fun u => !(delete_user d remote u).1.1).map
            fun u => (u, (delete_user d remote u).1.2))) ∧
    ((delete_users_batch d remote ("alice" :: "ghost" :: rest)).1.total =
        rest.length + 2) ∧
    (∀ u ∈ rest,
      u ∈ (delete_users_batch d remote ("alice" :: "ghost" :: rest)).1.successful ∨
      ∃ m, (u, m) ∈ (delete_users_batch d remote ("alice" :: "ghost" :: rest)).1.failed) := by
  have hda : delete_user d remote "alice" =
      ((true, "Successfully deleted user \x27alice\x27"), ["alice"]) := by
    simp [delete_user, hdry, h1]
  have hdg : delete_user d remote "ghost" =
      ((false, "User \x27ghost\x27 not found"), ["ghost"]) := by
    simp [delete_user, hdry, h2]
  rw [delete_users_batch, batchLoop_spec]
  refine ⟨by simp [List.filter_cons, hda, hdg], by simp [List.filter_cons, hda, hdg],
    by simp, ?_⟩
  intro u hu
  by_cases hsucc : (delete_user d remote u).1.1
  · left
    simp only [List.filter_cons, hda, hdg]
    simp only [List.nil_append]
    exact List.mem_cons_of_mem _ (List.mem_filter.mpr ⟨hu, hsucc⟩)
  · right
    refine ⟨(delete_user d remote u).1.2, ?_⟩
    simp only [List.filter_cons, hda, hdg]
    simp only [List.nil_append]
    refine List.mem_cons_of_mem _ ?_
    exact List.mem_map.mpr ⟨u, List.mem_filter.mpr ⟨hu, by simp [hsucc]⟩, rfl⟩

/-- Remote behaviour used by the C6 witness: `alice` exists and deletes
cleanly; every other identifier is unknown. -/
def c6remote : String → HttpResult := fun u =>
  if u == "alice" then HttpResult.response 200 none else HttpResult.response 404 none

/-- C6 witness: the concrete batch `["alice", "ghost", "bob"]` reports
`alice` and `bob` processed (with the failure of `ghost` in between) and a total
of three. -/
theorem c6_batch_continues_past_failure_witness :
    ((delete_users_batch ⟨false⟩ c6remote ["alice", "ghost", "bob"]).1.successful =
      ["alice"]) ∧
    ((delete_users_batch ⟨false⟩ c6remote ["alice", "ghost", "bob"]).1.failed =
      [("ghost", "User \x27ghost\x27 not found"), ("bob", "User \x27bob\x27 not found")]) ∧
    ((delete_users_batch ⟨false⟩ c6remote ["alice", "ghost", "bob"]).1.total = 3) := by
  obtain ⟨hs, hf, ht, -⟩ :=
    c6_batch_continues_past_failure ⟨false⟩ c6remote ["bob"] none none rfl
      (by decide) (by decide)
  refine ⟨?_, ?_, ?_⟩
  · rw [hs]; rfl
  · rw [hf]; rfl
  · rw [ht]; rfl

/-- C9 witness: resolving a seed that no account names as its creator yields
an empty result, with an empty discovery result for an empty service-account
set. -/
theorem c9_childless_seed_yields_empty_witness :
    (find_users_created_by "ghost" [⟨some "alice", some "root"⟩] = [] ∧
      discoveryResult "ghost" [⟨some "alice", some "root"⟩] ∅ = ∅) ∧
    build_creator_map_get [⟨some "alice", some "root"⟩] "ghost" = [] := by
  refine ⟨(c9_childless_seed_yields_empty [⟨some "alice", some "root"⟩] "ghost").1 ?_,
    (c9_childless_seed_yields_empty [⟨some "alice", some "root"⟩] "ghost").2 ?_⟩
  · decide
  · intro u hu
    simp only [List.mem_singleton] at hu
    subst hu
    decide

/-- C7: in non-dry-run mode every raw remote result is classified exactly as
the source does: 200 → success; 400 with a parsed payload carrying an error
entry → refusal labelled with the server-supplied code when present and the
generic fallback otherwise; 400 with an unparseable payload or an empty
error array → the generic bad-request label (the malformed payload never
escapes `delete_user`); 404 → not found; any other status → failure quoting
the raw status; a raised transport exception → failure quoting the
underlying description. -/
theorem c7_delete_outcome_classification (d : ElasticUserDeleter)
    (remote : String → HttpResult) (u : String) (hdry : d.dry_run = false) :
    (∀ b, remote u = HttpResult.response 200 b →
      delete_user d remote u =
        ((true, "Successfully deleted user \x27" ++ u ++ "\x27"), [u])) ∧
    (∀ b e0 es, remote u = HttpResult.response 400 (some b) → b.errors = some (e0 :: es) →
      delete_user d remote u =
        ((false, "Cannot delete \x27" ++ u ++ "\x27: " ++ e0.code.getD "Unknown error"),
          [u])) ∧
    (remote u = HttpResult.response 400 none →
      delete_user d remote u =
        ((false, "Cannot delete \x27" ++ u ++ "\x27: Bad request (400)"), [u])) ∧
    (∀ b, remote u = HttpResult.response 400 (some b) → b.errors = some [] →
      delete_user d remote u =
        ((false, "Cannot delete \x27" ++ u ++ "\x27: Bad request (400)"), [u])) ∧
    (∀ b, remote u = HttpResult.response 400 (some b) → b.errors = none →
      delete_user d remote u =
        ((false, "Cannot delete \x27" ++ u ++ "\x27: Unknown error"), [u])) ∧
    (∀ b, remote u = HttpResult.response 404 b →
      delete_user d remote u = ((false, "User \x27" ++ u ++ "\x27 not found"), [u])) ∧
    (∀ st b, remote u = HttpResult.response st b → st ≠ 200 → st ≠ 400 → st ≠ 404 →
      delete_user d remote u =
        ((false, "Failed to delete \x27" ++ u ++ "\x27: HTTP " ++ toString st), [u])) ∧
    (∀ e, remote u = HttpResult.requestException e →
      delete_user d remote u = ((false, "Error deleting \x27" ++ u ++ "\x27: " ++ e), [u])) := by
  refine ⟨fun b hb => ?_, fun b e0 es hb he => ?_, fun hb => ?_, fun b hb he => ?_,
    fun b hb he => ?_, fun b hb => ?_, fun st b hb h200 h400 h404 => ?_, fun e hb => ?_⟩ <;>
    simp [delete_user, hdry, hb]
  · rw [he]
  · rw [he]
  · rw [he]
  · simp [h200, h400, h404]

/-- Remote behaviour used by the C7 witness: a 400 response whose payload
parses and carries a structured error code. -/
def c7remote : String → HttpResult :=
  fun _ => HttpResult.response 400 (some ⟨some [⟨some "user.protected"⟩]⟩)

/-- C7 witness: a 400 response with a parseable error payload is classified
as a refusal labelled with the server-supplied error code. -/
theorem c7_delete_outcome_classification_witness :
    delete_user ⟨false⟩ c7remote "admin" =
      ((false, "Cannot delete \x27" ++ "admin" ++ "\x27: " ++ "user.protected"),
        ["admin"]) :=
  (c7_delete_outcome_classification ⟨false⟩ c7remote "admin" rfl).2.1
    ⟨some [⟨some "user.protected"⟩]⟩ ⟨some "user.protected"⟩ [] rfl rfl

/-- C10: the batch report partitions the input — each identifier is appended,
in processing order, to `successful` exactly when its own delete reports
success and to `failed` otherwise — so the two lengths sum to the reported
total, which is the input length, whatever the per-item outcomes. -/
theorem c10_report_partitions_input (d : ElasticUserDeleter)
    (remote : String → HttpResult) (usernames : List String) :
    ((delete_users_batch d remote usernames).1.successful =
        (usernames.filter fun u => (delete_user d remote u).1.1)) ∧
    ((delete_users_batch d remote usernames).1.failed =
        ((usernames.filter fun u => !(delete_user d remote u).1.1).map
          fun u => (u, (delete_user d remote u).1.2))) ∧
    ((delete_users_batch d remote usernames).1.total = usernames.length) ∧
    ((delete_users_batch d remote usernames).1.successful.length +
        (delete_users_batch d remote usernames).1.failed.length = usernames.length) := by
  rw [delete_users_batch, batchLoop_spec]
  refine ⟨by simp, by simp, rfl, ?_⟩
  simp only [List.nil_append, List.length_map]
  exact length_filter_add_length_filter_not _ _

end CleanupEceUsers
